import Mathlib

/-!
Verification of the SQL query analyzer engine (`sql-query-analyzer.js`).

The JavaScript source is shallowly embedded over `List Char`:
strings become `List Char`, regular-expression tests become executable
matching functions with the same backtracking semantics, thrown errors
become `Except String`.  Definition names follow the source
(`cleanQuery`, `isSelectQuery`, `extractSelectClause`,
`splitSelectColumns`, `parseSelectColumns`, `extractColumnName`,
`analyzeQuery`).
-/

/-- Character class of the JavaScript regular-expression `\s`
(also the set trimmed by `String.prototype.trim`). -/
def isWsChar (c : Char) : Bool :=
  c = ' ' || c = '\t' || c = '\n' || c = '\x0b' || c = '\x0c' || c = '\r' ||
  c = '\u00A0' || c = '\u1680' || ('\u2000' ≤ c && c ≤ '\u200A') ||
  c = '\u2028' || c = '\u2029' || c = '\u202F' || c = '\u205F' || c = '\u3000' || c = '\uFEFF'

/-- Character class of the JavaScript regular-expression `\w`: `[A-Za-z0-9_]`. -/
def isWordChar (c : Char) : Bool :=
  ('a' ≤ c && c ≤ 'z') || ('A' ≤ c && c ≤ 'Z') || ('0' ≤ c && c ≤ '9') || c = '_'

/-- ASCII letters. -/
def isAsciiLetter (c : Char) : Bool :=
  ('a' ≤ c && c ≤ 'z') || ('A' ≤ c && c ≤ 'Z')

/-- Characters matched by the regular-expression `.` (without the `s` flag):
everything except line terminators. -/
def isDotMatchable (c : Char) : Bool :=
  !(c = '\n' || c = '\r' || c = '\u2028' || c = '\u2029')

/-- ASCII upper-casing, as used by `toUpperCase` on the ASCII inputs of the engine. -/
def asciiUpper (c : Char) : Char :=
  if 'a' ≤ c && c ≤ 'z' then Char.ofNat (c.toNat - 32) else c

/-- ASCII lower-casing, as used by `toLowerCase` on the ASCII inputs of the engine. -/
def asciiLower (c : Char) : Char :=
  if 'A' ≤ c && c ≤ 'Z' then Char.ofNat (c.toNat + 32) else c

/-- Boolean prefix test on character lists (`String.prototype.startsWith`). -/
def strStartsWith : List Char → List Char → Bool
  | _, [] => true
  | [], _ :: _ => false
  | c :: cs, p :: ps => c = p && strStartsWith cs ps

/-- JavaScript `String.prototype.trim`: drop leading and trailing whitespace. -/
def jsTrim (s : List Char) : List Char :=
  ((s.dropWhile isWsChar).reverse.dropWhile isWsChar).reverse

/-- JavaScript `String.prototype.substring` restricted to `Nat` arguments:
clamps to the string and swaps the bounds when given in the wrong order. -/
def jsSubstring (s : List Char) (a b : Nat) : List Char :=
  (s.take (max a b)).drop (min a b)

/-- Index of the first occurrence of `pat`, scanning from index `n`
(`String.prototype.indexOf`). -/
def firstOccurAux (pat : List Char) : List Char → Nat → Option Nat
  | [], n => if strStartsWith [] pat then some n else none
  | c :: rest, n =>
    if strStartsWith (c :: rest) pat then some n else firstOccurAux pat rest (n + 1)

/-- Index of the last occurrence of character `c`
(`String.prototype.lastIndexOf` for a single character). -/
def lastIdxOfAux (c : Char) : List Char → Nat → Option Nat
  | [], _ => none
  | x :: rest, i =>
    match lastIdxOfAux c rest (i + 1) with
    | some j => some j
    | none => if x = c then some i else none

/-- Last-occurrence index of a character, or `none`. -/
def lastIdxOf (c : Char) (s : List Char) : Option Nat := lastIdxOfAux c s 0

/-- JavaScript `replace(/a/g, b)` for single characters `a`, `b`. -/
def replaceAllChar (a b : Char) (s : List Char) : List Char :=
  s.map fun c => if c = a then b else c

/-- JavaScript `replace(/\s+/g, ' ')`: each maximal whitespace run becomes one
space.  The flag records whether the scanner is inside a run already replaced. -/
def collapseAux : Bool → List Char → List Char
  | _, [] => []
  | inRun, c :: rest =>
    if isWsChar c then
      if inRun then collapseAux true rest else ' ' :: collapseAux true rest
    else c :: collapseAux false rest

/-- JavaScript `split(/\s+/)`: splits at maximal whitespace runs, keeping the
empty pieces that JavaScript produces at the ends. -/
def jsSplitWsAux : Bool → List Char → List (List Char) → List Char → List (List Char)
  | _, cur, acc, [] => (cur.reverse :: acc).reverse
  | prevWs, cur, acc, c :: rest =>
    if isWsChar c then
      if prevWs then jsSplitWsAux true cur acc rest
      else jsSplitWsAux true [] (cur.reverse :: acc) rest
    else jsSplitWsAux false (c :: cur) acc rest

/-- JavaScript `columnExpr.split(/\s+/)`. -/
def jsSplitWs (s : List Char) : List (List Char) := jsSplitWsAux false [] [] s

/-- The analyzer class: its only field is the immutable keyword set built by the
constructor. -/
structure SQLQueryAnalyzer where
  sqlKeywords : List (List Char)

/-- The constructor `new SQLQueryAnalyzer()`. -/
def newSQLQueryAnalyzer : SQLQueryAnalyzer :=
  ⟨["FROM".data, "WHERE".data, "GROUP".data, "HAVING".data, "ORDER".data, "LIMIT".data,
    "OFFSET".data, "UNION".data, "INTERSECT".data, "EXCEPT".data, "JOIN".data, "INNER".data,
    "LEFT".data, "RIGHT".data, "FULL".data, "OUTER".data, "ON".data, "USING".data]⟩

/-- Source `cleanQuery`: trim, collapse whitespace runs to one space, then the
(now vacuous) newline and tab replacements. -/
def cleanQuery (query : List Char) : List Char :=
  replaceAllChar '\t' ' ' (replaceAllChar '\n' ' ' (collapseAux false (jsTrim query)))

/-- Source `isSelectQuery`: `query.toUpperCase().trim().startsWith('SELECT')`. -/
def isSelectQuery (query : List Char) : Bool :=
  strStartsWith (jsTrim (query.map asciiUpper)) "SELECT".data

/-- Quote handling shared by `extractSelectClause` and `splitSelectColumns`:
toggle the quote state on an unescaped `'` or `"`. -/
def stepQuote (q : Option Char) (prev c : Char) : Option Char :=
  if (c = '"' || c = '\'') && prev ≠ '\\' then
    match q with
    | none => some c
    | some qc => if c = qc then none else some qc
  else q

/-- Parenthesis-depth update used outside quotes. -/
def stepParen (d : Int) (c : Char) : Int :=
  if c = '(' then d + 1 else if c = ')' then d - 1 else d

/-- One step of the shared depth/quote scanner: quotes first, then (outside
quotes) the parenthesis depth, exactly as in the source loops. -/
def scanStep (prev c : Char) (st : Int × Option Char) : Int × Option Char :=
  if stepQuote st.2 prev c = none then (stepParen st.1 c, stepQuote st.2 prev c)
  else (st.1, stepQuote st.2 prev c)

/-- Scanner state after a list of characters, also tracking the previous
character (used for escape detection). -/
def foldScan (init : Char × (Int × Option Char)) (l : List Char) : Char × (Int × Option Char) :=
  l.foldl (fun pst c => (c, scanStep pst.1 c pst.2)) init

/-- The `extractSelectClause` loop: starting with previous character `prev` and
state `st`, find the first index (counting from `idx`) at which, outside quotes
and at depth zero, the remaining text upper-cases to a `" FROM "` prefix.  The
loop bound `i < query.length - 4` of the source becomes the `rest.length < 4`
stop. -/
def scanFrom (prev : Char) (st : Int × Option Char) : List Char → Nat → Option Nat
  | [], _ => none
  | c :: rest, idx =>
    if rest.length < 4 then none
    else
      let st2 := scanStep prev c st
      if st2.2 = none ∧ st2.1 = 0 ∧ strStartsWith ((c :: rest).map asciiUpper) " FROM ".data then
        some idx
      else scanFrom c st2 rest (idx + 1)

/-- Source `upperQuery.indexOf('SELECT') + 6` (with `-1 + 6` when absent). -/
def selectStartIdx (query : List Char) : Nat :=
  match firstOccurAux "SELECT".data (query.map asciiUpper) 0 with
  | some n => n + 6
  | none => 5

/-- The previous character seen when the clause scan starts (`query[i - 1]`). -/
def selectScanInit (query : List Char) : Char :=
  query.getD (selectStartIdx query - 1) ' '

/-- The end of the SELECT clause: the first top-level `" FROM "` position, or
the length of the query when none is found. -/
def selectEndIdx (query : List Char) : Nat :=
  match scanFrom (selectScanInit query) (0, none)
      (query.drop (selectStartIdx query)) (selectStartIdx query) with
  | some i => i
  | none => query.length

/-- Source `extractSelectClause`. -/
def extractSelectClause (query : List Char) : List Char :=
  jsTrim (jsSubstring query (selectStartIdx query) (selectEndIdx query))

/-- The `splitSelectColumns` loop: accumulate the current segment (reversed) in
`cur` and the finished segments (reversed) in `acc`, splitting at commas seen
outside quotes at depth zero. -/
def splitColsAux (prev : Char) (st : Int × Option Char) (cur : List Char)
    (acc : List (List Char)) : List Char → List (List Char)
  | [] =>
    if jsTrim cur.reverse = [] then acc.reverse else (jsTrim cur.reverse :: acc).reverse
  | c :: rest =>
    let st2 := scanStep prev c st
    if st2.2 = none ∧ c = ',' ∧ st2.1 = 0 then
      splitColsAux c st2 [] (jsTrim cur.reverse :: acc) rest
    else splitColsAux c st2 (c :: cur) acc rest

/-- Source `splitSelectColumns`. -/
def splitSelectColumns (selectClause : List Char) : List (List Char) :=
  splitColsAux ' ' (0, none) [] [] selectClause

/-- The regular expression `/^(\w+)$/`: the whole string is one word. -/
def matchIdentOnly (s : List Char) : Option (List Char) :=
  if s ≠ [] ∧ s.all isWordChar then some s else none

/-- Head-of-list whitespace test. -/
def headIsWs : List Char → Bool
  | [] => false
  | c :: _ => isWsChar c

/-- The regular expression `/^(?:AS\s+)?(\w+)$/i`: an optional case-insensitive
`AS` with trailing whitespace, then a word captured and returned. -/
def matchAsOptIdent (s : List Char) : Option (List Char) :=
  match s with
  | a :: b :: rest =>
    if (a = 'A' ∨ a = 'a') ∧ (b = 'S' ∨ b = 's') ∧ headIsWs rest then
      let r := rest.dropWhile isWsChar
      if r ≠ [] ∧ r.all isWordChar then some r else matchIdentOnly s
    else matchIdentOnly s
  | _ => matchIdentOnly s

/-- The tail `\s+AS\s+(\w+)$` of the alias regular expression: whitespace, a
case-insensitive `AS`, whitespace, then a final word which is returned.
Since `\s`, `AS` and `\w` are disjoint the greedy match is deterministic. -/
def matchTailAS (t : List Char) : Option (List Char) :=
  match t with
  | [] => none
  | c :: _ =>
    if isWsChar c then
      match t.dropWhile isWsChar with
      | a :: b :: r2 =>
        if (a = 'A' ∨ a = 'a') ∧ (b = 'S' ∨ b = 's') then
          match r2 with
          | [] => none
          | d :: _ =>
            if isWsChar d then
              let r4 := r2.dropWhile isWsChar
              if r4 ≠ [] ∧ r4.all isWordChar then some r4 else none
            else none
        else none
      | _ => none
    else none

/-- The lazy group `(.+?)` of `/^(.+?)\s+AS\s+(\w+)$/i`: try the shortest
prefix first, every prefix character matched by `.`, and hand the rest to
`matchTailAS`. -/
def asAliasGo : List Char → Option (List Char)
  | [] => none
  | c :: rest =>
    if isDotMatchable c then
      match matchTailAS rest with
      | some m => some m
      | none => asAliasGo rest
    else none

/-- The regular expression `/^(.+?)\s+AS\s+(\w+)$/i`, returning group 2. -/
def matchAsAlias (s : List Char) : Option (List Char) := asAliasGo s

/-- The regular expression `/^(\w+)\s*\(/`, returning group 1. -/
def funcNameMatch (s : List Char) : Option (List Char) :=
  let w := s.takeWhile isWordChar
  if w = [] then none
  else
    match (s.drop w.length).dropWhile isWsChar with
    | c :: _ => if c = '(' then some w else none
    | [] => none

/-- The regular expression `/^[a-zA-Z_]\w*$/`. -/
def isIdentStrict (s : List Char) : Bool :=
  match s with
  | [] => false
  | c :: rest => (isAsciiLetter c || c = '_') && rest.all isWordChar

/-- The regular expression `/[+\-*/]/.test`. -/
def hasOperatorChar (s : List Char) : Bool :=
  s.any fun c => c = '+' || c = '-' || c = '*' || c = '/'

/-- Source `extractColumnName`: subquery branch, explicit `AS` alias, implicit
alias, function name, table-qualified column, operator fallback, bare column. -/
def extractColumnName (a : SQLQueryAnalyzer) (columnExpr : List Char) : List Char :=
  if strStartsWith (jsTrim columnExpr) "(".data then
    match lastIdxOf ')' columnExpr with
    | some lastParenIndex =>
      let afterParen := jsTrim (columnExpr.drop (lastParenIndex + 1))
      if afterParen ≠ [] then
        match matchAsOptIdent afterParen with
        | some m => m
        | none =>
          match matchIdentOnly afterParen with
          | some m => m
          | none => "subquery_result".data
      else "subquery_result".data
    | none => "subquery_result".data
  else
    match matchAsAlias columnExpr with
    | some al => al
    | none =>
      let parts := jsSplitWs columnExpr
      let implicitRes : Option (List Char) :=
        if parts.length ≥ 2 then
          let lastPart := parts.getLastD []
          if !(a.sqlKeywords.contains (lastPart.map asciiUpper)) && isIdentStrict lastPart then
            some lastPart
          else none
        else none
      match implicitRes with
      | some m => m
      | none =>
        let baseExpr := parts.headD []
        match funcNameMatch baseExpr with
        | some f => f.map asciiLower
        | none =>
          match lastIdxOf '.' baseExpr with
          | some dotIndex => baseExpr.drop (dotIndex + 1)
          | none =>
            if hasOperatorChar baseExpr then "calculated_field".data else baseExpr

/-- Source `parseSelectColumns`: name each trimmed segment, keeping only the
truthy (non-empty) names. -/
def parseSelectColumns (a : SQLQueryAnalyzer) (selectClause : List Char) : List (List Char) :=
  ((splitSelectColumns selectClause).map fun part =>
    extractColumnName a (jsTrim part)).filter fun n => !n.isEmpty

/-- Error message for non-string / empty input. -/
def errNonEmptyMsg : String := "Query must be a non-empty string"

/-- Error message for non-SELECT statements. -/
def errOnlySelectMsg : String := "Only SELECT queries are supported"

/-- Source `analyzeQuery` on string input (the `!query` truthiness test on a
string is exactly the emptiness test). -/
def analyzeQuery (a : SQLQueryAnalyzer) (query : List Char) :
    Except String (List (List Char)) :=
  if query = [] then .error errNonEmptyMsg
  else
    let cq := cleanQuery query
    if !isSelectQuery cq then .error errOnlySelectMsg
    else .ok (parseSelectColumns a (extractSelectClause cq))

/-- A JavaScript argument value: a string, or any non-string value (every
non-string is rejected by the `typeof` guard, whatever its truthiness). -/
inductive JSValue where
  | str (s : List Char) : JSValue
  | nonString : JSValue

/-- Source `analyzeQuery` on an arbitrary JavaScript argument. -/
def analyzeQueryJS (a : SQLQueryAnalyzer) : JSValue → Except String (List (List Char))
  | .nonString => .error errNonEmptyMsg
  | .str s => analyzeQuery a s

/-- Fuelled scanner for the words of a string (the fuel only realizes
termination; any fuel at least the length of the list gives the same value). -/
def wsWordsF : Nat → List Char → List (List Char)
  | _, [] => []
  | 0, _ :: _ => []
  | n + 1, c :: rest =>
    if isWsChar c then wsWordsF n rest
    else (c :: rest.takeWhile (fun x => !isWsChar x)) ::
      wsWordsF n (rest.dropWhile (fun x => !isWsChar x))

/-- Maximal runs of non-whitespace characters, in order (the words of a
string, as the specification's normalizer description uses them). -/
def wsWords (s : List Char) : List (List Char) := wsWordsF s.length s

/-- Words joined by single spaces. -/
def joinSpace : List (List Char) → List Char
  | [] => []
  | [w] => w
  | w :: ws => w ++ ' ' :: joinSpace ws

/-- The normal form described by the specification for the normalizer: leading
and trailing whitespace removed and every internal maximal whitespace run
replaced by exactly one space. -/
def specNormalize (s : List Char) : List Char := joinSpace (wsWords s)

/-- The claim-side notion for C4: the string begins with the case-insensitive
token `SELECT`, i.e. the word `SELECT` followed by a token boundary. -/
def beginsWithSelectToken (s : List Char) : Bool :=
  strStartsWith (s.map asciiUpper) "SELECT".data && !isWordChar (s.getD 6 ' ')

/-- A single bare word of `\w` characters (claim-side, C6). -/
def isBareWordTok (t : List Char) : Bool := !t.isEmpty && t.all isWordChar

/-- Strip a leading case-insensitive `AS` followed by whitespace (claim-side, C6). -/
def stripLeadingASci : List Char → Option (List Char)
  | a :: b :: rest =>
    if (a = 'A' ∨ a = 'a') ∧ (b = 'S' ∨ b = 's') ∧ headIsWs rest then
      some (rest.dropWhile isWsChar)
    else none
  | _ => none

/-- The name claim C6 assigns to the trimmed text after the last `)`:
an optional case-insensitive `AS` followed by a single word, or exactly one
bare word, gives that word; anything else gives `subquery_result`. -/
def specAfterParenName (t : List Char) : List Char :=
  match stripLeadingASci t with
  | some r =>
    if isBareWordTok r then r
    else if isBareWordTok t then t else "subquery_result".data
  | none => if isBareWordTok t then t else "subquery_result".data

/-- The name claim C6 assigns to a parenthesised column expression, computed
solely from the trimmed text after the last `)` (or `subquery_result` when
there is no `)`). -/
def specSubqueryName (e : List Char) : List Char :=
  match lastIdxOf ')' e with
  | some i => specAfterParenName (jsTrim (e.drop (i + 1)))
  | none => "subquery_result".data

/-- Scanner state reached just before index `i`, obtained by folding the
shared scan step over the first `i` characters (initial previous character
`prev0`). -/
def stateBeforeIdx (prev0 : Char) (s : List Char) (i : Nat) : Int × Option Char :=
  (foldScan (prev0, (0, none)) (s.take i)).2

/-- Number of positions of `s` holding a comma while the scanner is outside
quotes at parenthesis depth zero (the declarative count of top-level commas). -/
def topLevelCommaCount (s : List Char) : Nat :=
  (List.range s.length).countP fun i =>
    decide (s.getD i ' ' = ',' ∧ stateBeforeIdx ' ' s i = (0, none))

/-- Recursive count of the commas at which the splitting loop splits. -/
def countTopCommasAux (prev : Char) (st : Int × Option Char) : List Char → Nat
  | [] => 0
  | c :: rest =>
    (if (scanStep prev c st).2 = none ∧ c = ',' ∧ (scanStep prev c st).1 = 0 then 1 else 0) +
      countTopCommasAux c (scanStep prev c st) rest

/-- The maximal run of `\w` characters at the end of a string. -/
def trailingWordRun (u : List Char) : List Char :=
  (u.reverse.takeWhile isWordChar).reverse

/-- Decomposition witnessing a whole-string match of
`<anything> AS <word>` (case-insensitive `AS`), parameterized by the
requirement placed on the trailing word. -/
def AsAliasDecompWith (ident : List Char → Prop) (e id : List Char) : Prop :=
  ∃ p w1 a b w2, e = p ++ w1 ++ [a, b] ++ w2 ++ id ∧
    p ≠ [] ∧ (∀ c ∈ p, isDotMatchable c = true) ∧
    w1 ≠ [] ∧ (∀ c ∈ w1, isWsChar c = true) ∧
    (a = 'A' ∨ a = 'a') ∧ (b = 'S' ∨ b = 's') ∧
    w2 ≠ [] ∧ (∀ c ∈ w2, isWsChar c = true) ∧ ident id

/-- Decomposition for the amended claim: the alias is any non-empty `\w` word. -/
def AsAliasDecomp (e id : List Char) : Prop :=
  AsAliasDecompWith (fun w => w ≠ [] ∧ ∀ c ∈ w, isWordChar c = true) e id

/-- The tail test of claim C5 as written: whitespace, case-insensitive `AS`,
whitespace, then an identifier (letters/digits/underscore, not starting with a
digit) reaching the end. -/
def claimTailB (t : List Char) : Bool :=
  headIsWs t &&
    (match t.dropWhile isWsChar with
     | a :: b :: r2 =>
       ((a = 'A' ∨ a = 'a') ∧ (b = 'S' ∨ b = 's')) && headIsWs r2 &&
         isIdentStrict (r2.dropWhile isWsChar)
     | _ => false)

/-- Claim C5 as written: the whole expression matches
`<anything> AS <identifier>` with a no-leading-digit identifier. -/
def claimAliasFires (e : List Char) : Bool :=
  (List.range e.length).any fun i =>
    (e.take (i + 1)).all isDotMatchable && claimTailB (e.drop (i + 1))

/-- Claim C1 counterexample: on `SELECT price * quantity FROM order_items`
(no alias) the engine returns `["quantity"]` — the implicit-alias rule takes
the last whitespace-separated token — not `["calculated_field"]`. -/
theorem analyzeQuery_unaliased_product_yields_quantity :
    analyzeQuery newSQLQueryAnalyzer "SELECT price * quantity FROM order_items".data
      = .ok ["quantity".data] ∧
    ("quantity".data : List Char) ≠ "calculated_field".data :=
  ⟨rfl, by decide⟩

/-- Claim C1 amended: the unaliased spaced product names the column
`quantity`; the aliased form names it `total`; the fallback
`calculated_field` appears when the first token itself carries the operator. -/
theorem analyzeQuery_computed_expression_examples :
    analyzeQuery newSQLQueryAnalyzer "SELECT price * quantity FROM order_items".data
      = .ok ["quantity".data] ∧
    analyzeQuery newSQLQueryAnalyzer "SELECT price * quantity AS total FROM order_items".data
      = .ok ["total".data] ∧
    analyzeQuery newSQLQueryAnalyzer "SELECT price*quantity FROM order_items".data
      = .ok ["calculated_field".data] :=
  ⟨rfl, rfl, rfl⟩

/-- Claim C2 counterexample: a whitespace-only (hence non-empty) string gets
the `Only SELECT queries are supported` error, not the claimed
`Query must be a non-empty string`. -/
theorem analyzeQuery_whitespace_only_error_mismatch :
    analyzeQueryJS newSQLQueryAnalyzer (.str [' ']) = .error errOnlySelectMsg ∧
    errOnlySelectMsg ≠ errNonEmptyMsg :=
  ⟨rfl, by decide⟩

/-- Claim C2 amended: the `Query must be a non-empty string` error is raised
exactly for non-string inputs and the empty string; a whitespace-only
non-empty string instead falls through to the non-SELECT error. -/
theorem analyzeQuery_invalid_input_errors (inp : JSValue) :
    (analyzeQueryJS newSQLQueryAnalyzer inp = .error errNonEmptyMsg ↔
      inp = .nonString ∨ inp = .str []) ∧
    (∀ s, s ≠ [] → (∀ c ∈ s, isWsChar c = true) →
      analyzeQueryJS newSQLQueryAnalyzer (.str s) = .error errOnlySelectMsg) := by
  have hmsg : errOnlySelectMsg ≠ errNonEmptyMsg := by decide
  have hws : ∀ s : List Char, (∀ c ∈ s, isWsChar c = true) → cleanQuery s = [] := by
    intro s h
    have : s.dropWhile isWsChar = [] := List.dropWhile_eq_nil_iff.mpr h
    simp [cleanQuery, jsTrim, this, collapseAux, replaceAllChar]
  constructor
  · cases inp with
    | nonString => simp [analyzeQueryJS]
    | str s =>
      simp only [analyzeQueryJS, analyzeQuery]
      by_cases hs : s = []
      · simp [hs]
      · simp only [if_neg hs]
        constructor
        · intro h
          split at h
          · exact absurd (Except.error.inj h) hmsg
          · exact absurd h (by simp)
        · rintro (h | h)
          · exact absurd h (by simp)
          · exact absurd (JSValue.str.inj h) hs
  · intro s hs hall
    simp only [analyzeQueryJS, analyzeQuery, if_neg hs, hws s hall]
    rfl

/-- Witness for the amended C2 theorem at a concrete whitespace-only input. -/
theorem analyzeQuery_invalid_input_errors_witness :
    analyzeQueryJS newSQLQueryAnalyzer (.str ['\t']) = .error errOnlySelectMsg :=
  (analyzeQuery_invalid_input_errors (.str ['\t'])).2 ['\t'] (by decide) (by decide)

/-- Claim C4 counterexample: `SELECTED` does not begin with the token
`SELECT` (no boundary after the word), yet the engine accepts it and returns
`["ED"]` instead of raising `Only SELECT queries are supported`. -/
theorem analyzeQuery_selected_accepted :
    beginsWithSelectToken (cleanQuery "SELECTED".data) = false ∧
    analyzeQuery newSQLQueryAnalyzer "SELECTED".data = .ok ["ED".data] :=
  ⟨by decide, rfl⟩

/-- Claim C4 amended: for non-empty input, the `Only SELECT queries are
supported` error is raised exactly when the cleaned query, upper-cased and
trimmed, does not start with the six characters `SELECT`; no token boundary
is required after them. -/
theorem analyzeQuery_only_select_error_iff (q : List Char) (hq : q ≠ []) :
    analyzeQuery newSQLQueryAnalyzer q = .error errOnlySelectMsg ↔
      isSelectQuery (cleanQuery q) = false := by
  have hmsg : errOnlySelectMsg ≠ errNonEmptyMsg := by decide
  simp only [analyzeQuery, if_neg hq]
  by_cases h : isSelectQuery (cleanQuery q) <;> simp [h]

/-- Witness for the amended C4 theorem: an INSERT statement is rejected with
the non-SELECT error. -/
theorem analyzeQuery_only_select_error_iff_witness :
    analyzeQuery newSQLQueryAnalyzer "UPDATE users SET name = 1".data
      = .error errOnlySelectMsg :=
  (analyzeQuery_only_select_error_iff _ (by decide)).mpr (by decide)

/-- Claim C9: the analysis is a pure function of the query text — repeated
calls with the same input yield the same result, and the result depends only
on the constructor-built keyword configuration. -/
theorem analyzeQueryJS_deterministic (inp : JSValue) :
    analyzeQueryJS newSQLQueryAnalyzer inp = analyzeQueryJS newSQLQueryAnalyzer inp ∧
    analyzeQueryJS newSQLQueryAnalyzer inp
      = analyzeQueryJS ⟨newSQLQueryAnalyzer.sqlKeywords⟩ inp :=
  ⟨rfl, rfl⟩

/-- Claim C10: every name in a successful result is non-empty, because the
result is exactly the per-segment names with the empty ones filtered out. -/
theorem analyzeQuery_names_nonempty (inp : JSValue) (res : List (List Char))
    (h : analyzeQueryJS newSQLQueryAnalyzer inp = .ok res) :
    (∀ n ∈ res, n ≠ []) ∧
    ∃ s, inp = .str s ∧
      res = ((splitSelectColumns (extractSelectClause (cleanQuery s))).map fun part =>
        extractColumnName newSQLQueryAnalyzer (jsTrim part)).filter fun n => !n.isEmpty := by
  cases inp with
  | nonString => exact absurd h (by simp [analyzeQueryJS])
  | str s =>
    simp only [analyzeQueryJS, analyzeQuery] at h
    by_cases hs : s = []
    · rw [if_pos hs] at h; exact absurd h (by simp)
    · rw [if_neg hs] at h
      split at h
      · exact absurd h (by simp)
      · have hres : res = parseSelectColumns newSQLQueryAnalyzer (extractSelectClause (cleanQuery s)) :=
          (Except.ok.inj h).symm
        refine ⟨?_, s, rfl, by rw [hres]; rfl⟩
        intro n hn
        rw [hres] at hn
        have := List.of_mem_filter hn
        simpa [List.isEmpty_iff] using this

/-- Witness for the C10 theorem at a concrete query. -/
theorem analyzeQuery_names_nonempty_witness :
    ("a".data : List Char) ≠ [] :=
  (analyzeQuery_names_nonempty (.str "SELECT a FROM t".data) ["a".data] rfl).1
    "a".data (by decide)

/-- Claim C3 counterexample: `SELECT a. FROM t` has one non-empty segment
(`a.`) but the engine returns no names — the derived name is empty and is
dropped. -/
theorem parseSelectColumns_dot_segment_dropped :
    analyzeQuery newSQLQueryAnalyzer "SELECT a. FROM t".data = .ok [] ∧
    ((splitSelectColumns (extractSelectClause (cleanQuery "SELECT a. FROM t".data))).filter
      fun p => !p.isEmpty).length = 1 :=
  ⟨rfl, by decide⟩

/-- Claim C3 amended: the number of returned names equals the number of
segments whose derived name is non-empty; a segment with an empty derived
name (necessarily including every empty segment) contributes nothing. -/
theorem parseSelectColumns_count_nonempty_names (a : SQLQueryAnalyzer) (sc : List Char) :
    (parseSelectColumns a sc).length =
      ((splitSelectColumns sc).filter fun p =>
        !(extractColumnName a (jsTrim p)).isEmpty).length ∧
    ∀ p : List Char, (extractColumnName a (jsTrim p)).isEmpty = false → jsTrim p ≠ [] := by
  constructor
  · unfold parseSelectColumns
    rw [List.filter_map, List.length_map]
    rfl
  · intro p h hcontra
    rw [hcontra] at h
    have : extractColumnName a ([] : List Char) = [] := rfl
    rw [this] at h
    simp at h

/-- Witness for the amended C3 theorem at a concrete clause and segment. -/
theorem parseSelectColumns_count_nonempty_names_witness :
    (parseSelectColumns newSQLQueryAnalyzer "a, b".data).length =
      ((splitSelectColumns "a, b".data).filter fun p =>
        !(extractColumnName newSQLQueryAnalyzer (jsTrim p)).isEmpty).length ∧
    jsTrim "x".data ≠ [] :=
  ⟨(parseSelectColumns_count_nonempty_names newSQLQueryAnalyzer "a, b".data).1,
   (parseSelectColumns_count_nonempty_names newSQLQueryAnalyzer "a, b".data).2
     "x".data (by decide)⟩

/-- Helper: the `/^(\w+)$/` test succeeds exactly on a bare word, returning it. -/
theorem matchIdentOnly_eq_bareWord (t : List Char) :
    matchIdentOnly t = if isBareWordTok t then some t else none := by
  unfold matchIdentOnly isBareWordTok
  by_cases h1 : t = []
  · subst h1; simp
  · by_cases h2 : t.all isWordChar
    · simp [h1, h2, List.isEmpty_iff]
    · simp [h1, h2, List.isEmpty_iff]

/-- Helper: the source cascade on the text after the closing parenthesis (the
non-empty guard, the optional-`AS` regex, then the bare-word regex, else the
fallback) computes exactly the claim-side name. -/
theorem afterParenCascade_eq_spec (t : List Char) :
    (if t ≠ [] then
      match matchAsOptIdent t with
      | some m => m
      | none =>
        match matchIdentOnly t with
        | some m => m
        | none => "subquery_result".data
     else "subquery_result".data) = specAfterParenName t := by
  rcases t with _ | ⟨a0, _ | ⟨b0, r⟩⟩
  · simp [specAfterParenName, stripLeadingASci, isBareWordTok]
  · simp only [matchAsOptIdent, matchIdentOnly_eq_bareWord, specAfterParenName, stripLeadingASci]
    by_cases hb : isBareWordTok [a0] <;> simp [hb]
  · simp only [matchAsOptIdent, specAfterParenName, stripLeadingASci]
    by_cases hc : (a0 = 'A' ∨ a0 = 'a') ∧ (b0 = 'S' ∨ b0 = 's') ∧ headIsWs r = true
    · rw [if_pos hc, if_pos hc]
      simp only [matchIdentOnly_eq_bareWord]
      by_cases hr : (r.dropWhile isWsChar ≠ [] ∧ (r.dropWhile isWsChar).all isWordChar)
      · have hbr : isBareWordTok (r.dropWhile isWsChar) = true := by
          simp [isBareWordTok, List.isEmpty_iff, hr.1, hr.2]
        simp [hr, hbr]
      · have hbr : isBareWordTok (r.dropWhile isWsChar) = false := by
          simp only [isBareWordTok, Bool.and_eq_false_iff, Bool.not_eq_true']
          by_cases he : r.dropWhile isWsChar = []
          · left; simp [he]
          · right
            rcases not_and_or.mp hr with h | h
            · exact absurd he (by simpa using h)
            · simpa using h
        simp only [if_neg hr, hbr, Bool.false_eq_true, if_false]
        by_cases hb : isBareWordTok (a0 :: b0 :: r) <;> simp [hb]
    · rw [if_neg hc, if_neg hc]
      simp only [matchIdentOnly_eq_bareWord]
      by_cases hb : isBareWordTok (a0 :: b0 :: r) <;> simp [hb]

/-- Claim C6: for a column expression whose first non-space character is `(`,
the name is computed solely from the trimmed text after its last `)` — an
optional case-insensitive `AS` plus one word, or one bare word, gives that
word; anything else gives `subquery_result`. -/
theorem extractColumnName_subquery_spec (a : SQLQueryAnalyzer) (e : List Char)
    (hp : strStartsWith (jsTrim e) "(".data = true) :
    extractColumnName a e = specSubqueryName e := by
  unfold extractColumnName specSubqueryName
  rw [if_pos hp]
  cases hL : lastIdxOf ')' e with
  | none => rfl
  | some i => exact afterParenCascade_eq_spec (jsTrim (e.drop (i + 1)))

/-- Witness for the C6 theorem at a concrete subquery expression. -/
theorem extractColumnName_subquery_spec_witness :
    extractColumnName newSQLQueryAnalyzer "( SELECT 1 ) AS cnt".data
      = specSubqueryName "( SELECT 1 ) AS cnt".data ∧
    specSubqueryName "( SELECT 1 ) AS cnt".data = "cnt".data :=
  ⟨extractColumnName_subquery_spec _ _ (by decide), by decide⟩

/-- Helper: the scan step leaves the state unchanged on a character that is
neither a quote nor a parenthesis. -/
theorem scanStep_nonspecial (prev c : Char) (st : Int × Option Char)
    (h1 : c ≠ '"') (h2 : c ≠ '\'') (h3 : c ≠ '(') (h4 : c ≠ ')') :
    scanStep prev c st = st := by
  have hq : stepQuote st.2 prev c = st.2 := by
    unfold stepQuote
    rw [if_neg]
    simp [h1, h2]
  have hp : stepParen st.1 c = st.1 := by
    unfold stepParen
    rw [if_neg (by simp [h3]), if_neg (by simp [h4])]
  unfold scanStep
  rw [hq, hp]
  split <;> exact Prod.mk.eta

/-- Helper: a character whose ASCII upper-casing is a space is a space or a
lower-case letter; in either case the scan step ignores it. -/
theorem scanStep_of_upper_space (prev c : Char) (st : Int × Option Char)
    (h : asciiUpper c = ' ') : scanStep prev c st = st := by
  by_cases hr : ('a' ≤ c && c ≤ 'z') = true
  · have hc : 'a' ≤ c ∧ c ≤ 'z' := by simpa using hr
    refine scanStep_nonspecial prev c st ?_ ?_ ?_ ?_ <;>
      (intro hh; rw [hh] at hc; exact absurd hc.1 (by decide))
  · unfold asciiUpper at h
    rw [if_neg hr] at h
    subst h
    exact scanStep_nonspecial prev ' ' st (by decide) (by decide) (by decide) (by decide)

/-- Helper: when the clause scan reports a `FROM` at offset `k`, the scanner
state folded over the first `k` characters is outside quotes at depth zero,
and the text from `k` upper-cases to a `" FROM "` prefix. -/
theorem scanFrom_sound (rem : List Char) : ∀ prev st idx j,
    scanFrom prev st rem idx = some j →
    ∃ k, j = idx + k ∧
      (foldScan (prev, st) (rem.take k)).2 = (0, none) ∧
      strStartsWith ((rem.drop k).map asciiUpper) " FROM ".data = true := by
  induction rem with
  | nil =>
    intro prev st idx j h
    exact absurd h (by simp [scanFrom])
  | cons c rest ih =>
    intro prev st idx j h
    unfold scanFrom at h
    by_cases hlen : rest.length < 4
    · rw [if_pos hlen] at h; exact absurd h (by simp)
    · rw [if_neg hlen] at h
      by_cases hcond : (scanStep prev c st).2 = none ∧ (scanStep prev c st).1 = 0 ∧
          strStartsWith ((c :: rest).map asciiUpper) " FROM ".data = true
      · rw [if_pos hcond] at h
        have hj : j = idx := (Option.some.inj h).symm
        have hc : asciiUpper c = ' ' := by
          have h5 := hcond.2.2
          simp only [List.map_cons] at h5
          unfold strStartsWith at h5
          exact of_decide_eq_true (Bool.and_eq_true _ _ |>.mp h5).1
        have hstep : scanStep prev c st = st := scanStep_of_upper_space prev c st hc
        have hst : st = (0, none) := by
          have h1 := hcond.1
          have h2 := hcond.2.1
          rw [hstep] at h1 h2
          exact Prod.ext h2 h1
        refine ⟨0, by omega, ?_, by simpa using hcond.2.2⟩
        simp [foldScan, hst]
      · rw [if_neg hcond] at h
        obtain ⟨k, hk, hst, hfrom⟩ := ih c (scanStep prev c st) (idx + 1) j h
        refine ⟨k + 1, by omega, ?_, ?_⟩
        · rw [List.take_succ_cons]
          simpa [foldScan] using hst
        · simpa [List.drop_succ_cons] using hfrom

/-- Helper: the splitting condition at a comma is exactly that the state
before the comma is outside quotes at depth zero. -/
theorem comma_cond_iff (prev c : Char) (st : Int × Option Char) :
    ((scanStep prev c st).2 = none ∧ c = ',' ∧ (scanStep prev c st).1 = 0) ↔
      (c = ',' ∧ st = (0, none)) := by
  constructor
  · rintro ⟨h1, hc, h2⟩
    subst hc
    have hstep : scanStep prev ',' st = st :=
      scanStep_nonspecial prev ',' st (by decide) (by decide) (by decide) (by decide)
    rw [hstep] at h1 h2
    exact ⟨rfl, Prod.ext h2 h1⟩
  · rintro ⟨hc, hst⟩
    subst hc
    have hstep : scanStep prev ',' st = st :=
      scanStep_nonspecial prev ',' st (by decide) (by decide) (by decide) (by decide)
    rw [hstep, hst]
    exact ⟨rfl, rfl, rfl⟩

/-- Helper: the recursive comma count agrees with the declarative count over
positions, with the scanner state folded over each prefix. -/
theorem countTopCommasAux_eq (s : List Char) : ∀ prev st,
    countTopCommasAux prev st s =
      (List.range s.length).countP (fun i =>
        decide (s.getD i ' ' = ',' ∧ (foldScan (prev, st) (s.take i)).2 = (0, none))) := by
  induction s with
  | nil => intro prev st; rfl
  | cons c rest ih =>
    intro prev st
    unfold countTopCommasAux
    rw [List.length_cons, List.range_succ_eq_map, List.countP_cons, List.countP_map]
    have h0 : (decide ((c :: rest).getD 0 ' ' = ',' ∧
        (foldScan (prev, st) ((c :: rest).take 0)).2 = (0, none))) =
        decide (c = ',' ∧ st = (0, none)) := by
      simp [foldScan]
    have hrec : ((fun i => decide ((c :: rest).getD i ' ' = ',' ∧
        (foldScan (prev, st) ((c :: rest).take i)).2 = (0, none))) ∘ Nat.succ) =
        (fun i => decide (rest.getD i ' ' = ',' ∧
          (foldScan (c, scanStep prev c st) (rest.take i)).2 = (0, none))) := by
      funext i
      simp [List.take_succ_cons, foldScan]
    rw [hrec, ← ih c (scanStep prev c st)]
    by_cases h : (scanStep prev c st).2 = none ∧ c = ',' ∧ (scanStep prev c st).1 = 0
    · rw [if_pos h, h0, if_pos (decide_eq_true ((comma_cond_iff prev c st).mp h))]
      omega
    · rw [if_neg h, h0]
      have : ¬ (c = ',' ∧ st = (0, none)) := fun hh => h ((comma_cond_iff prev c st).mpr hh)
      rw [if_neg (by simpa using this)]
      omega

/-- Helper: the splitter produces one part per splitting comma, plus at most
one final part. -/
theorem splitColsAux_length (rest : List Char) : ∀ prev st cur acc,
    (splitColsAux prev st cur acc rest).length = acc.length + countTopCommasAux prev st rest ∨
    (splitColsAux prev st cur acc rest).length = acc.length + countTopCommasAux prev st rest + 1 := by
  induction rest with
  | nil =>
    intro prev st cur acc
    unfold splitColsAux countTopCommasAux
    by_cases h : jsTrim cur.reverse = [] <;> simp [h]
  | cons c rest ih =>
    intro prev st cur acc
    unfold splitColsAux countTopCommasAux
    by_cases h : (scanStep prev c st).2 = none ∧ c = ',' ∧ (scanStep prev c st).1 = 0
    · rw [if_pos h, if_pos h]
      rcases ih c (scanStep prev c st) [] (jsTrim cur.reverse :: acc) with h1 | h1 <;>
        rw [h1] <;> simp only [List.length_cons] <;> omega
    · rw [if_neg h, if_neg h]
      rcases ih c (scanStep prev c st) (c :: cur) acc with h1 | h1 <;>
        rw [h1] <;> omega

/-- Claim C7: a `" FROM "` occurrence terminates the clause only where the
scanner state (folded over the prefix) is outside quotes at depth zero, and
the number of parts the splitter produces is governed exactly by the
top-level commas (so a comma inside parentheses or quotes never splits). -/
theorem nesting_safety (q s : List Char) :
    (∀ j, scanFrom (selectScanInit q) (0, none)
        (q.drop (selectStartIdx q)) (selectStartIdx q) = some j →
      selectEndIdx q = j ∧
      ∃ k, j = selectStartIdx q + k ∧
        (foldScan (selectScanInit q, (0, none)) ((q.drop (selectStartIdx q)).take k)).2
          = (0, none) ∧
        strStartsWith (((q.drop (selectStartIdx q)).drop k).map asciiUpper)
          " FROM ".data = true) ∧
    ((splitSelectColumns s).length = topLevelCommaCount s ∨
     (splitSelectColumns s).length = topLevelCommaCount s + 1) := by
  constructor
  · intro j h
    refine ⟨by unfold selectEndIdx; rw [h], ?_⟩
    exact scanFrom_sound _ _ _ _ _ h
  · have h1 := splitColsAux_length s ' ' (0, none) [] []
    have h2 := countTopCommasAux_eq s ' ' (0, none)
    unfold splitSelectColumns topLevelCommaCount stateBeforeIdx
    rw [← h2]
    simpa using h1

/-- Witness for the C7 theorem: a query whose subquery commas and quoted
commas are skipped, and a clause with one top-level comma. -/
theorem nesting_safety_witness :
    selectEndIdx "SELECT a, f(x, y) FROM t".data = 17 ∧
    ((splitSelectColumns "a, f(x, y)".data).length = topLevelCommaCount "a, f(x, y)".data ∨
     (splitSelectColumns "a, f(x, y)".data).length
       = topLevelCommaCount "a, f(x, y)".data + 1) :=
  ⟨((nesting_safety "SELECT a, f(x, y) FROM t".data []).1 17 (by decide)).1,
   (nesting_safety [] "a, f(x, y)".data).2⟩

/-- Helper: the head of a `dropWhile` result fails the predicate. -/
theorem dropWhile_head_false {p : Char → Bool} :
    ∀ {l : List Char} {x : Char} {xs : List Char}, l.dropWhile p = x :: xs → p x = false := by
  intro l
  induction l with
  | nil => intro x xs h; simp at h
  | cons c rest ih =>
    intro x xs h
    by_cases hc : p c
    · rw [List.dropWhile_cons_of_pos hc] at h; exact ih h
    · rw [List.dropWhile_cons_of_neg hc] at h
      obtain ⟨rfl, -⟩ := List.cons.inj h
      simpa using hc

/-- Helper: `dropWhile` skips a prefix all of whose elements satisfy the
predicate. -/
theorem dropWhile_append_all {p : Char → Bool} :
    ∀ {u v : List Char}, (∀ c ∈ u, p c = true) → (u ++ v).dropWhile p = v.dropWhile p := by
  intro u
  induction u with
  | nil => intro v _; rfl
  | cons c rest ih =>
    intro v h
    rw [List.cons_append, List.dropWhile_cons_of_pos (h c (List.mem_cons_self c rest))]
    exact ih fun x hx => h x (List.mem_cons_of_mem c hx)


/-- Helper: `takeWhile` passes over a prefix all of whose elements satisfy the
predicate. -/
theorem takeWhile_append_all {p : Char → Bool} :
    ∀ {u v : List Char}, (∀ c ∈ u, p c = true) → (u ++ v).takeWhile p = u ++ v.takeWhile p := by
  intro u
  induction u with
  | nil => intro v _; rfl
  | cons c rest ih =>
    intro v h
    rw [List.cons_append, List.takeWhile_cons_of_pos (h c (List.mem_cons_self c rest))]
    rw [ih fun x hx => h x (List.mem_cons_of_mem c hx), List.cons_append]

/-- Helper: when some element of `u` fails the predicate, `takeWhile` and
`dropWhile` on `u ++ v` stop inside `u`. -/
theorem takeWhile_dropWhile_append_stop {p : Char → Bool} :
    ∀ {u v : List Char}, u.dropWhile p ≠ [] →
      (u ++ v).takeWhile p = u.takeWhile p ∧ (u ++ v).dropWhile p = u.dropWhile p ++ v := by
  intro u
  induction u with
  | nil => intro v h; exact absurd rfl h
  | cons c rest ih =>
    intro v h
    by_cases hc : p c
    · rw [List.dropWhile_cons_of_pos hc] at h
      obtain ⟨h1, h2⟩ := ih (v := v) h
      refine ⟨?_, ?_⟩
      · rw [List.cons_append, List.takeWhile_cons_of_pos hc, List.takeWhile_cons_of_pos hc, h1]
      · rw [List.cons_append, List.dropWhile_cons_of_pos hc, List.dropWhile_cons_of_pos hc, h2]
    · refine ⟨?_, ?_⟩
      · rw [List.cons_append, List.takeWhile_cons_of_neg hc, List.takeWhile_cons_of_neg hc]
      · rw [List.cons_append, List.dropWhile_cons_of_neg hc, List.dropWhile_cons_of_neg hc,
          List.cons_append]

/-- Equation lemma for the empty case of the collapse. -/
theorem collapseAux_nil (b : Bool) : collapseAux b [] = [] := rfl

/-- Equation lemma for the cons case of the collapse. -/
theorem collapseAux_cons (b : Bool) (c : Char) (rest : List Char) :
    collapseAux b (c :: rest) =
      if isWsChar c then
        (if b then collapseAux true rest else ' ' :: collapseAux true rest)
      else c :: collapseAux false rest := rfl

/-- Helper: the word scanner ignores extra fuel. -/
theorem wsWordsF_fuel_eq : ∀ (n : Nat) (s : List Char), s.length ≤ n → wsWordsF n s = wsWords s := by
  intro n
  induction n using Nat.strong_induction_on with
  | _ n ih =>
    intro s hs
    cases s with
    | nil => cases n <;> rfl
    | cons c rest =>
      cases n with
      | zero => simp at hs
      | succ n =>
        have hr : rest.length ≤ n := by simp only [List.length_cons] at hs; omega
        have hrhs : wsWords (c :: rest) =
            (if isWsChar c then wsWordsF rest.length rest
             else (c :: rest.takeWhile fun x => !isWsChar x) ::
               wsWordsF rest.length (rest.dropWhile fun x => !isWsChar x)) := rfl
        rw [hrhs]
        show (if isWsChar c then wsWordsF n rest
          else (c :: rest.takeWhile fun x => !isWsChar x) ::
            wsWordsF n (rest.dropWhile fun x => !isWsChar x)) = _
        by_cases hc : isWsChar c
        · rw [if_pos hc, if_pos hc, ih n (Nat.lt_succ_self n) rest hr]
          rfl
        · rw [if_neg hc, if_neg hc]
          have hdw := (List.dropWhile_sublist (fun x => !isWsChar x) (l := rest)).length_le
          rw [ih n (Nat.lt_succ_self n) _ (le_trans hdw hr),
            ih rest.length (by omega) _ hdw]

/-- Equation lemma for the empty case of the word scanner. -/
theorem wsWords_nil : wsWords [] = [] := rfl

/-- Equation lemma for the cons case of the word scanner. -/
theorem wsWords_cons (c : Char) (rest : List Char) :
    wsWords (c :: rest) =
      if isWsChar c then wsWords rest
      else (c :: rest.takeWhile (fun x => !isWsChar x)) ::
        wsWords (rest.dropWhile (fun x => !isWsChar x)) := by
  have hrhs : wsWords (c :: rest) =
      (if isWsChar c then wsWordsF rest.length rest
       else (c :: rest.takeWhile fun x => !isWsChar x) ::
         wsWordsF rest.length (rest.dropWhile fun x => !isWsChar x)) := rfl
  rw [hrhs]
  by_cases hc : isWsChar c
  · rw [if_pos hc, if_pos hc]
    exact wsWordsF_fuel_eq rest.length rest le_rfl
  · rw [if_neg hc, if_neg hc]
    rw [wsWordsF_fuel_eq rest.length _
      (List.dropWhile_sublist (fun x => !isWsChar x) (l := rest)).length_le]

/-- Helper: every character the whitespace collapse emits is a space or a
non-whitespace character. -/
theorem collapseAux_mem_space_or_not_ws :
    ∀ (b : Bool) (t : List Char) (c : Char),
      c ∈ collapseAux b t → c = ' ' ∨ isWsChar c = false := by
  intro b t
  induction t generalizing b with
  | nil => intro c h; simp [collapseAux_nil] at h
  | cons x rest ih =>
    intro c h
    rw [collapseAux_cons] at h
    by_cases hx : isWsChar x
    · rw [if_pos hx] at h
      cases b with
      | true => exact ih true c (by simpa using h)
      | false =>
        simp only [Bool.false_eq_true, if_false] at h
        rcases List.mem_cons.mp h with h | h
        · exact Or.inl h
        · exact ih true c h
    · rw [if_neg hx] at h
      rcases List.mem_cons.mp h with h | h
      · subst h; exact Or.inr (by simpa using hx)
      · exact ih false c h

/-- Helper: replacing a character that does not occur is the identity. -/
theorem replaceAllChar_id :
    ∀ {u : List Char} {a b : Char}, a ∉ u → replaceAllChar a b u = u := by
  intro u
  induction u with
  | nil => intro a b _; rfl
  | cons x rest ih =>
    intro a b h
    unfold replaceAllChar
    simp only [List.map_cons]
    have hx : ¬ x = a := fun hh => h (by rw [← hh]; exact List.mem_cons_self x rest)
    rw [if_neg hx]
    have htail := ih (a := a) (b := b) fun hr => h (List.mem_cons_of_mem x hr)
    unfold replaceAllChar at htail
    rw [htail]

/-- Helper: the collapse walks through a run of non-whitespace characters
unchanged. -/
theorem collapseAux_word_passthrough :
    ∀ {w r : List Char}, (∀ c ∈ w, isWsChar c = false) →
      collapseAux false (w ++ r) = w ++ collapseAux false r := by
  intro w
  induction w with
  | nil => intro r _; rfl
  | cons x rest ih =>
    intro r h
    have hx : isWsChar x = false := h x (List.mem_cons_self x rest)
    rw [List.cons_append, collapseAux_cons, if_neg (by simp [hx]),
      ih fun c hc => h c (List.mem_cons_of_mem x hc), List.cons_append]

/-- Helper: inside a whitespace run the collapse just drops the remaining
whitespace. -/
theorem collapseAux_true_eq_dropWhile :
    ∀ (u : List Char), collapseAux true u = collapseAux false (u.dropWhile isWsChar) := by
  intro u
  induction u with
  | nil => rfl
  | cons x rest ih =>
    by_cases hx : isWsChar x
    · rw [collapseAux_cons, if_pos hx, if_pos rfl, List.dropWhile_cons_of_pos hx, ih]
    · rw [collapseAux_cons, if_neg hx, List.dropWhile_cons_of_neg hx, collapseAux_cons, if_neg hx]

/-- Helper: a whitespace-only string has no words. -/
theorem wsWords_all_ws :
    ∀ {u : List Char}, (∀ c ∈ u, isWsChar c = true) → wsWords u = [] := by
  intro u
  induction u with
  | nil => intro _; exact wsWords_nil
  | cons x rest ih =>
    intro h
    have hx : isWsChar x = true := h x (List.mem_cons_self x rest)
    rw [wsWords_cons, if_pos hx]
    exact ih fun c hc => h c (List.mem_cons_of_mem x hc)

/-- Helper: leading whitespace does not change the words. -/
theorem wsWords_dropWhile_ws : ∀ (u : List Char), wsWords (u.dropWhile isWsChar) = wsWords u := by
  intro u
  induction u with
  | nil => rfl
  | cons x rest ih =>
    by_cases hx : isWsChar x
    · rw [List.dropWhile_cons_of_pos hx, ih, wsWords_cons, if_pos hx]
    · rw [List.dropWhile_cons_of_neg hx]

/-- Helper (fuelled): trailing whitespace does not change the words. -/
theorem wsWords_append_ws_fuel :
    ∀ (n : Nat) (v w : List Char), v.length ≤ n → (∀ c ∈ w, isWsChar c = true) →
      wsWords (v ++ w) = wsWords v := by
  intro n
  induction n with
  | zero =>
    intro v w hv hw
    have hnil : v = [] := List.length_eq_zero.mp (Nat.le_zero.mp hv)
    subst hnil
    rw [List.nil_append, wsWords_all_ws hw, wsWords_nil]
  | succ n ih =>
    intro v w hv hw
    match v with
    | [] => rw [List.nil_append, wsWords_all_ws hw, wsWords_nil]
    | x :: v' =>
      have hv' : v'.length ≤ n := by simp only [List.length_cons] at hv; omega
      by_cases hx : isWsChar x
      · rw [List.cons_append, wsWords_cons, if_pos hx, wsWords_cons, if_pos hx]
        exact ih v' w hv' hw
      · rw [List.cons_append, wsWords_cons, if_neg hx, wsWords_cons, if_neg hx]
        by_cases hall : v'.dropWhile (fun y => !isWsChar y) = []
        · have hallp : ∀ c ∈ v', (fun y => !isWsChar y) c = true :=
            List.dropWhile_eq_nil_iff.mp hall
          rw [takeWhile_append_all hallp, dropWhile_append_all hallp, hall]
          have htk : v'.takeWhile (fun y => !isWsChar y) = v' := by
            have h0 := takeWhile_append_all (v := ([] : List Char)) hallp
            simpa using h0
          rw [htk]
          cases w with
          | nil => simp
          | cons y w' =>
            have hy : isWsChar y = true := hw y (List.mem_cons_self y w')
            rw [List.takeWhile_cons_of_neg (by simp [hy]),
              List.dropWhile_cons_of_neg (by simp [hy]), List.append_nil,
              wsWords_all_ws hw, wsWords_nil]
        · obtain ⟨h1, h2⟩ := takeWhile_dropWhile_append_stop (v := w) hall
          rw [h1, h2]
          have hlen : (v'.dropWhile (fun y => !isWsChar y)).length ≤ n := by
            have hs := (List.dropWhile_sublist (fun y => !isWsChar y) (l := v')).length_le
            omega
          rw [ih (v'.dropWhile (fun y => !isWsChar y)) w hlen hw]

/-- Helper: trailing whitespace does not change the words. -/
theorem wsWords_append_ws (v w : List Char) (hw : ∀ c ∈ w, isWsChar c = true) :
    wsWords (v ++ w) = wsWords v :=
  wsWords_append_ws_fuel v.length v w le_rfl hw

/-- Equation lemma: joining one word. -/
theorem joinSpace_single (w : List Char) : joinSpace [w] = w := rfl

/-- Equation lemma: joining at least two words puts one space between. -/
theorem joinSpace_cons_of_ne_nil (w : List Char) (ws : List (List Char)) (h : ws ≠ []) :
    joinSpace (w :: ws) = w ++ ' ' :: joinSpace ws := by
  cases ws with
  | nil => exact absurd rfl h
  | cons a b => rfl

/-- Helper: the last element of a list with a non-empty suffix is the last
element of that suffix. -/
theorem getLast?_of_suffix {u v : List Char} (h : u <:+ v) (hu : u ≠ []) :
    v.getLast? = u.getLast? := by
  obtain ⟨w, rfl⟩ := h
  exact List.getLast?_append_of_ne_nil w hu

/-- Helper (fuelled): on a string with no leading and no trailing whitespace,
collapsing whitespace runs is exactly joining the words with single spaces. -/
theorem collapse_eq_join_fuel :
    ∀ (n : Nat) (t : List Char), t.length ≤ n →
      (∀ x, t.head? = some x → isWsChar x = false) →
      (∀ x, t.getLast? = some x → isWsChar x = false) →
      collapseAux false t = joinSpace (wsWords t) := by
  intro n
  induction n using Nat.strong_induction_on with
  | _ n ih =>
    intro t ht hhead hlast
    cases t with
    | nil => rw [collapseAux_nil, wsWords_nil]; rfl
    | cons c rest =>
      have hc : isWsChar c = false := hhead c rfl
      have hrest : rest = rest.takeWhile (fun y => !isWsChar y) ++
          rest.dropWhile (fun y => !isWsChar y) := (List.takeWhile_append_dropWhile _ _).symm
      have htw : ∀ x ∈ rest.takeWhile (fun y => !isWsChar y), isWsChar x = false := by
        intro x hx
        have := List.mem_takeWhile_imp hx
        simpa using this
      rw [collapseAux_cons, if_neg (by simp [hc]), wsWords_cons, if_neg (by simp [hc])]
      conv_lhs => rw [hrest]
      rw [collapseAux_word_passthrough htw]
      cases hdw : rest.dropWhile (fun y => !isWsChar y) with
      | nil =>
        rw [collapseAux_nil, wsWords_nil, List.append_nil, joinSpace_single]
      | cons d dw =>
        have hd : isWsChar d = true := by
          have := dropWhile_head_false (p := fun y => !isWsChar y) hdw
          simpa using this
        have hlenrest : rest.length =
            (rest.takeWhile (fun y => !isWsChar y)).length + (d :: dw).length := by
          conv_lhs => rw [hrest, hdw]
          rw [List.length_append]
        rw [collapseAux_cons, if_pos hd]
        have hfalse : (if false then collapseAux true dw else ' ' :: collapseAux true dw)
            = ' ' :: collapseAux true dw := rfl
        rw [hfalse, collapseAux_true_eq_dropWhile]
        have hdw2 : dw = dw.takeWhile isWsChar ++ dw.dropWhile isWsChar :=
          (List.takeWhile_append_dropWhile _ _).symm
        have hshape : c :: rest =
            ((c :: rest.takeWhile (fun y => !isWsChar y)) ++ (d :: dw.takeWhile isWsChar)) ++
              dw.dropWhile isWsChar := by
          conv_lhs => rw [hrest, hdw]
          conv_lhs => rw [hdw2]
          simp [List.cons_append, List.append_assoc]
        have hr2ne : dw.dropWhile isWsChar ≠ [] := by
          intro hnil
          have hglast : (c :: rest).getLast? = (d :: dw).getLast? := by
            conv_lhs => rw [hrest, hdw]
            rw [show c :: (rest.takeWhile (fun y => !isWsChar y) ++ (d :: dw)) =
              (c :: rest.takeWhile (fun y => !isWsChar y)) ++ (d :: dw) by
                rw [List.cons_append]]
            exact List.getLast?_append_of_ne_nil _ (by simp)
          have hallws : ∀ x ∈ dw, isWsChar x = true := List.dropWhile_eq_nil_iff.mp hnil
          cases hdwnil : dw with
          | nil =>
            rw [hdwnil] at hglast
            have := hlast d (by rw [hglast]; rfl)
            rw [this] at hd
            exact Bool.false_ne_true hd
          | cons y dw' =>
            have hglast2 : (d :: dw).getLast? = dw.getLast? := by
              rw [show d :: dw = [d] ++ dw by rfl]
              exact List.getLast?_append_of_ne_nil _ (by rw [hdwnil]; simp)
            cases hgl : dw.getLast? with
            | none => rw [hdwnil] at hgl; simp at hgl
            | some z =>
              have hz : z ∈ dw := List.mem_of_mem_getLast? hgl
              have hzws : isWsChar z = true := hallws z hz
              have := hlast z (by rw [hglast, hglast2]; exact hgl)
              rw [this] at hzws
              exact Bool.false_ne_true hzws
        cases hr2 : dw.dropWhile isWsChar with
        | nil => exact absurd hr2 hr2ne
        | cons e r2' =>
          have he : isWsChar e = false := dropWhile_head_false (p := isWsChar) hr2
          have hlen2 : (e :: r2').length < n := by
            have h1 : (e :: r2').length ≤ dw.length := by
              rw [← hr2]
              exact (List.dropWhile_sublist isWsChar (l := dw)).length_le
            have h2 : (c :: rest).length ≤ n := ht
            simp only [List.length_cons] at h1 h2 hlenrest ⊢
            omega
          have hih := ih (e :: r2').length hlen2 (e :: r2') le_rfl
            (by intro x hx
                have hxe : e = x := by simpa using hx
                rw [← hxe]; exact he)
            (by intro x hx
                have hsuffix : (c :: rest).getLast? = (e :: r2').getLast? := by
                  rw [hshape, hr2]
                  exact List.getLast?_append_of_ne_nil _ (by simp)
                exact hlast x (by rw [hsuffix]; exact hx))
          rw [hih]
          have hwsdw : wsWords (d :: dw) = wsWords (e :: r2') := by
            rw [wsWords_cons, if_pos hd, ← hr2, wsWords_dropWhile_ws]
          rw [hwsdw]
          have hwne : wsWords (e :: r2') ≠ [] := by
            rw [wsWords_cons, if_neg (by simp [he])]
            simp
          rw [joinSpace_cons_of_ne_nil _ _ hwne]
          simp [List.cons_append, List.append_assoc]

/-- Helper: the trimmed string starts with a non-whitespace character. -/
theorem jsTrim_head (s : List Char) :
    ∀ x, (jsTrim s).head? = some x → isWsChar x = false := by
  intro x hx
  unfold jsTrim at hx
  rw [List.head?_reverse] at hx
  have hbigne : (s.dropWhile isWsChar).reverse.dropWhile isWsChar ≠ [] := by
    intro h0
    rw [h0] at hx
    simp at hx
  have hsuf : (s.dropWhile isWsChar).reverse.dropWhile isWsChar <:+
      (s.dropWhile isWsChar).reverse := List.dropWhile_suffix _
  have hlast : (s.dropWhile isWsChar).reverse.getLast? = some x := by
    rw [getLast?_of_suffix hsuf hbigne]
    exact hx
  rw [List.getLast?_reverse] at hlast
  cases hs1 : s.dropWhile isWsChar with
  | nil => rw [hs1] at hlast; simp at hlast
  | cons y ys =>
    rw [hs1] at hlast
    have hxy : y = x := by simpa using hlast
    subst hxy
    exact dropWhile_head_false hs1

/-- Helper: the trimmed string ends with a non-whitespace character. -/
theorem jsTrim_last (s : List Char) :
    ∀ x, (jsTrim s).getLast? = some x → isWsChar x = false := by
  intro x hx
  unfold jsTrim at hx
  rw [List.getLast?_reverse] at hx
  cases hb : (s.dropWhile isWsChar).reverse.dropWhile isWsChar with
  | nil => rw [hb] at hx; simp at hx
  | cons y ys =>
    rw [hb] at hx
    have hxy : y = x := by simpa using hx
    subst hxy
    exact dropWhile_head_false hb

/-- Helper: removing trailing whitespace does not change the words. -/
theorem wsWords_trimEnd (u : List Char) :
    wsWords ((u.reverse.dropWhile isWsChar).reverse) = wsWords u := by
  have hsplit : u.reverse = u.reverse.takeWhile isWsChar ++ u.reverse.dropWhile isWsChar :=
    (List.takeWhile_append_dropWhile _ _).symm
  have hu : u = (u.reverse.dropWhile isWsChar).reverse ++
      (u.reverse.takeWhile isWsChar).reverse := by
    have h0 := congrArg List.reverse hsplit
    rw [List.reverse_reverse, List.reverse_append] at h0
    exact h0
  have hws : ∀ c ∈ (u.reverse.takeWhile isWsChar).reverse, isWsChar c = true := by
    intro c hc
    exact List.mem_takeWhile_imp (List.mem_reverse.mp hc)
  conv_rhs => rw [hu]
  rw [wsWords_append_ws _ _ hws]

/-- Helper: trimming does not change the words. -/
theorem wsWords_jsTrim (s : List Char) : wsWords (jsTrim s) = wsWords s := by
  unfold jsTrim
  rw [wsWords_trimEnd, wsWords_dropWhile_ws]

/-- Claim C8: the normalizer returns the input with leading and trailing
whitespace removed and every internal maximal whitespace run (tabs and
newlines included) replaced by exactly one space — the words joined by single
spaces.  It is a total function. -/
theorem cleanQuery_eq_specNormalize (s : List Char) : cleanQuery s = specNormalize s := by
  have hnl : '\n' ∉ collapseAux false (jsTrim s) := by
    intro hmem
    rcases collapseAux_mem_space_or_not_ws false (jsTrim s) '\n' hmem with h | h
    · exact absurd h (by decide)
    · exact absurd h (by decide)
  have htb : '\t' ∉ collapseAux false (jsTrim s) := by
    intro hmem
    rcases collapseAux_mem_space_or_not_ws false (jsTrim s) '\t' hmem with h | h
    · exact absurd h (by decide)
    · exact absurd h (by decide)
  unfold cleanQuery
  rw [replaceAllChar_id hnl, replaceAllChar_id htb]
  rw [collapse_eq_join_fuel (jsTrim s).length (jsTrim s) le_rfl (jsTrim_head s) (jsTrim_last s)]
  unfold specNormalize
  rw [wsWords_jsTrim]

/-- Helper: a `\w` character is never whitespace. -/
theorem word_not_ws : ∀ c, isWordChar c = true → isWsChar c = false := by
  intro c hw
  simp only [isWordChar, Bool.or_eq_true, Bool.and_eq_true, decide_eq_true_eq] at hw
  have h0 : '0' ≤ c ∧ c ≤ 'z' := by
    rcases hw with ((⟨hw1, hw2⟩ | ⟨hw1, hw2⟩) | ⟨hw1, hw2⟩) | hw
    · exact ⟨le_trans (by decide) hw1, hw2⟩
    · exact ⟨le_trans (by decide) hw1, le_trans hw2 (by decide)⟩
    · exact ⟨hw1, le_trans hw2 (by decide)⟩
    · rw [hw]; exact ⟨by decide, by decide⟩
  rw [Bool.eq_false_iff]
  intro h
  simp only [isWsChar, Bool.or_eq_true, Bool.and_eq_true, decide_eq_true_eq] at h
  rcases h with ((((((((((((((h|h)|h)|h)|h)|h)|h)|h)|⟨h1,h2⟩)|h)|h)|h)|h)|h)|h)
  all_goals first
    | (subst h; exact absurd h0 (by decide))
    | (exact absurd (le_trans h1 h0.2) (by decide))

/-- Helper: a whitespace character is never a `\w` character. -/
theorem ws_not_word : ∀ c, isWsChar c = true → isWordChar c = false := by
  intro c h
  rw [Bool.eq_false_iff]
  intro hw
  have h2 := word_not_ws c hw
  rw [h] at h2
  exact Bool.noConfusion h2


/-- Equation lemma for the tail matcher on a non-empty list. -/
theorem matchTailAS_cons_eq (c : Char) (t' : List Char) :
    matchTailAS (c :: t') =
      if isWsChar c then
        (match (c :: t').dropWhile isWsChar with
         | a :: b :: r2 =>
           if (a = 'A' ∨ a = 'a') ∧ (b = 'S' ∨ b = 's') then
             match r2 with
             | [] => none
             | d :: _ =>
               if isWsChar d then
                 if r2.dropWhile isWsChar ≠ [] ∧ (r2.dropWhile isWsChar).all isWordChar then
                   some (r2.dropWhile isWsChar)
                 else none
               else none
           else none
         | _ => none)
      else none := rfl

/-- Compute lemma: the tail matcher when the whitespace-stripped text is
shorter than three characters. -/
theorem matchTailAS_none_short (c : Char) (t' : List Char) (hc : isWsChar c = true)
    (hdrop : (c :: t').dropWhile isWsChar = [] ∨ ∃ a, (c :: t').dropWhile isWsChar = [a]) :
    matchTailAS (c :: t') = none := by
  rcases hdrop with h | ⟨a, h⟩ <;> rw [matchTailAS_cons_eq, if_pos hc, h]

/-- Compute lemma: the tail matcher when the whitespace-stripped text is
exactly two characters. -/
theorem matchTailAS_none_pair (c : Char) (t' : List Char) (hc : isWsChar c = true) (a b : Char)
    (hdrop : (c :: t').dropWhile isWsChar = [a, b]) : matchTailAS (c :: t') = none := by
  rw [matchTailAS_cons_eq, if_pos hc, hdrop]
  split
  · rename_i a2 b2 rest2 heq
    injection heq with h1 h2
    injection h2 with h3 h4
    subst h4
    split <;> rfl
  · rename_i hcontra
    exact (hcontra a b [] rfl).elim

/-- Compute lemma: the tail matcher when the whitespace-stripped text has at
least three characters. -/
theorem matchTailAS_compute (c : Char) (t' : List Char) (hc : isWsChar c = true)
    (a b d : Char) (r3 : List Char)
    (hdrop : (c :: t').dropWhile isWsChar = a :: b :: d :: r3) :
    matchTailAS (c :: t') =
      if (a = 'A' ∨ a = 'a') ∧ (b = 'S' ∨ b = 's') then
        if isWsChar d then
          if (d :: r3).dropWhile isWsChar ≠ [] ∧
              ((d :: r3).dropWhile isWsChar).all isWordChar then
            some ((d :: r3).dropWhile isWsChar)
          else none
        else none
      else none := by
  rw [matchTailAS_cons_eq, if_pos hc, hdrop]

/-- Helper: the tail matcher rejects a text whose first character is not
whitespace. -/
theorem matchTailAS_none_of_not_ws (c : Char) (t' : List Char) (hc : isWsChar c = false) :
    matchTailAS (c :: t') = none := by
  rw [matchTailAS_cons_eq, if_neg (by simp [hc])]

/-- Helper: characterization of the tail matcher `\s+AS\s+(\w+)$` as a
decomposition into whitespace, the letters `AS`, whitespace, and the word. -/
theorem matchTailAS_iff (t id : List Char) :
    matchTailAS t = some id ↔
      ∃ w1 a b w2, t = w1 ++ [a, b] ++ w2 ++ id ∧
        w1 ≠ [] ∧ (∀ c ∈ w1, isWsChar c = true) ∧
        (a = 'A' ∨ a = 'a') ∧ (b = 'S' ∨ b = 's') ∧
        w2 ≠ [] ∧ (∀ c ∈ w2, isWsChar c = true) ∧
        id ≠ [] ∧ (∀ c ∈ id, isWordChar c = true) := by
  constructor
  · intro h
    cases t with
    | nil => simp [matchTailAS] at h
    | cons c t' =>
      by_cases hc : isWsChar c
      · cases hdrop : (c :: t').dropWhile isWsChar with
        | nil => rw [matchTailAS_none_short c t' hc (Or.inl hdrop)] at h; simp at h
        | cons a r1 =>
          cases r1 with
          | nil => rw [matchTailAS_none_short c t' hc (Or.inr ⟨a, hdrop⟩)] at h; simp at h
          | cons b r2 =>
            cases r2 with
            | nil => rw [matchTailAS_none_pair c t' hc a b hdrop] at h; simp at h
            | cons d r3 =>
              rw [matchTailAS_compute c t' hc a b d r3 hdrop] at h
              by_cases hab : (a = 'A' ∨ a = 'a') ∧ (b = 'S' ∨ b = 's')
              · rw [if_pos hab] at h
                by_cases hd : isWsChar d
                · rw [if_pos hd] at h
                  by_cases hr4 : ((d :: r3).dropWhile isWsChar ≠ [] ∧
                      ((d :: r3).dropWhile isWsChar).all isWordChar)
                  · rw [if_pos hr4] at h
                    have hid : id = (d :: r3).dropWhile isWsChar := (Option.some.inj h).symm
                    refine ⟨(c :: t').takeWhile isWsChar, a, b, (d :: r3).takeWhile isWsChar,
                      ?_, ?_, ?_, hab.1, hab.2, ?_, ?_, ?_, ?_⟩
                    · rw [List.append_assoc, List.append_assoc]
                      rw [show ([a, b] ++ ((d :: r3).takeWhile isWsChar ++ id) : List Char) =
                        a :: b :: ((d :: r3).takeWhile isWsChar ++ id) from rfl]
                      rw [hid, List.takeWhile_append_dropWhile]
                      conv_lhs => rw [← List.takeWhile_append_dropWhile isWsChar (c :: t'), hdrop]
                    · rw [List.takeWhile_cons_of_pos hc]; simp
                    · intro x hx; exact List.mem_takeWhile_imp hx
                    · rw [List.takeWhile_cons_of_pos hd]; simp
                    · intro x hx; exact List.mem_takeWhile_imp hx
                    · rw [hid]; exact hr4.1
                    · intro x hx
                      rw [hid] at hx
                      exact List.all_eq_true.mp hr4.2 x hx
                  · rw [if_neg hr4] at h; simp at h
                · rw [if_neg hd] at h; simp at h
              · rw [if_neg hab] at h; simp at h
      · rw [matchTailAS_none_of_not_ws c t' (by simpa using hc)] at h
        simp at h
  · rintro ⟨w1, a, b, w2, rfl, hw1ne, hw1, ha, hb, hw2ne, hw2, hidne, hid⟩
    cases w1 with
    | nil => exact absurd rfl hw1ne
    | cons x w1' =>
      have hx : isWsChar x = true := hw1 x (List.mem_cons_self x w1')
      have hna : isWsChar a = false := by rcases ha with h | h <;> (subst h; decide)
      cases w2 with
      | nil => exact absurd rfl hw2ne
      | cons y w2' =>
        have hy : isWsChar y = true := hw2 y (List.mem_cons_self y w2')
        obtain ⟨i0, id', rfl⟩ : ∃ i0 id', id = i0 :: id' := by
          cases id with
          | nil => exact absurd rfl hidne
          | cons i0 id' => exact ⟨i0, id', rfl⟩
        have hi0 : isWsChar i0 = false :=
          word_not_ws i0 (hid i0 (List.mem_cons_self i0 id'))
        have hform : (x :: w1') ++ [a, b] ++ (y :: w2') ++ (i0 :: id') =
            x :: (w1' ++ [a, b] ++ (y :: w2') ++ (i0 :: id')) := by
          simp [List.cons_append]
        have hdropall : (x :: (w1' ++ [a, b] ++ (y :: w2') ++ (i0 :: id'))).dropWhile isWsChar =
            a :: b :: y :: (w2' ++ (i0 :: id')) := by
          rw [← hform, List.append_assoc, List.append_assoc]
          rw [dropWhile_append_all fun c hc => hw1 c hc]
          rw [show ([a, b] ++ ((y :: w2') ++ (i0 :: id')) : List Char) =
            a :: b :: y :: (w2' ++ (i0 :: id')) by simp]
          rw [List.dropWhile_cons_of_neg (by simp [hna])]
        have hr4eq : (y :: (w2' ++ (i0 :: id'))).dropWhile isWsChar = i0 :: id' := by
          rw [show (y :: (w2' ++ (i0 :: id')) : List Char) = (y :: w2') ++ (i0 :: id') by simp]
          rw [dropWhile_append_all fun c hc => hw2 c hc]
          rw [List.dropWhile_cons_of_neg (by simp [hi0])]
        rw [hform, matchTailAS_compute x _ hx a b y (w2' ++ (i0 :: id')) hdropall]
        rw [if_pos ⟨ha, hb⟩, if_pos hy, hr4eq,
          if_pos ⟨by simp, List.all_eq_true.mpr hid⟩]

/-- Helper: appending a word to something ending in a non-word character
makes that word the trailing word run. -/
theorem trailingWordRun_append (u id : List Char) (hid : ∀ c ∈ id, isWordChar c = true)
    (hz : ∃ z, u.getLast? = some z ∧ isWordChar z = false) :
    trailingWordRun (u ++ id) = id := by
  unfold trailingWordRun
  rw [List.reverse_append]
  rw [takeWhile_append_all fun c hc => hid c (List.mem_reverse.mp hc)]
  obtain ⟨z, hz1, hz2⟩ := hz
  cases hur : u.reverse with
  | nil =>
    have hu : u = [] := by simpa using congrArg List.reverse hur
    rw [hu] at hz1
    simp at hz1
  | cons z2 zs =>
    have hz2eq : z2 = z := by
      have h0 : u.reverse.head? = u.getLast? := List.head?_reverse u
      rw [hur, hz1] at h0
      simpa using h0
    rw [List.takeWhile_cons_of_neg (by rw [hz2eq]; simp [hz2]), List.append_nil,
      List.reverse_reverse]

/-- Helper: a successful tail match splits the text into a part ending in a
non-word character followed by the returned word. -/
theorem matchTailAS_decomp_u (t id : List Char) (h : matchTailAS t = some id) :
    ∃ u, t = u ++ id ∧ (∃ z, u.getLast? = some z ∧ isWordChar z = false) ∧
      id ≠ [] ∧ (∀ c ∈ id, isWordChar c = true) := by
  obtain ⟨w1, a, b, w2, heq, hw1ne, hw1, ha, hb, hw2ne, hw2, hidne, hid⟩ :=
    (matchTailAS_iff t id).mp h
  refine ⟨w1 ++ [a, b] ++ w2, by rw [heq], ?_, hidne, hid⟩
  obtain ⟨z, hz⟩ : ∃ z, w2.getLast? = some z := by
    cases hgl : w2.getLast? with
    | none => exact absurd (List.getLast?_eq_none_iff.mp hgl) hw2ne
    | some z => exact ⟨z, rfl⟩
  refine ⟨z, ?_, ws_not_word z (hw2 z (List.mem_of_mem_getLast? hz))⟩
  rw [List.getLast?_append_of_ne_nil _ hw2ne]
  exact hz

/-- Helper: the word returned by a successful tail match is the trailing word
run of the text. -/
theorem matchTailAS_val (t id : List Char) (h : matchTailAS t = some id) :
    id = trailingWordRun t := by
  obtain ⟨u, rfl, hz, hidne, hid⟩ := matchTailAS_decomp_u t id h
  exact (trailingWordRun_append u id hid hz).symm

/-- Helper: prepending text does not change the trailing word run determined
by a successful tail match. -/
theorem matchTailAS_val_of_prepend (p t id : List Char) (h : matchTailAS t = some id) :
    trailingWordRun (p ++ t) = id := by
  obtain ⟨u, rfl, hz, hidne, hid⟩ := matchTailAS_decomp_u t id h
  rw [show p ++ (u ++ id) = (p ++ u) ++ id by simp [List.append_assoc]]
  apply trailingWordRun_append _ _ hid
  obtain ⟨z, hz1, hz2⟩ := hz
  refine ⟨z, ?_, hz2⟩
  have hune : u ≠ [] := by
    intro h0
    rw [h0] at hz1
    simp at hz1
  rw [List.getLast?_append_of_ne_nil p hune]
  exact hz1

/-- Equation lemma for the lazy prefix scanner of the alias matcher. -/
theorem asAliasGo_cons (c : Char) (rest : List Char) :
    asAliasGo (c :: rest) =
      if isDotMatchable c then
        (match matchTailAS rest with
         | some m => some m
         | none => asAliasGo rest)
      else none := rfl

/-- Helper: characterization of the alias matcher `/^(.+?)\s+AS\s+(\w+)$/i`
as the existence of a split into a non-empty dot-matchable prefix and a
matching tail. -/
theorem asAliasGo_iff (e id : List Char) :
    asAliasGo e = some id ↔
      ∃ p t, e = p ++ t ∧ p ≠ [] ∧ (∀ c ∈ p, isDotMatchable c = true) ∧
        matchTailAS t = some id := by
  induction e with
  | nil =>
    constructor
    · intro h; simp [asAliasGo] at h
    · rintro ⟨p, t, heq, hpne, -, -⟩
      exact absurd (List.append_eq_nil.mp heq.symm).1 hpne
  | cons c rest ih =>
    constructor
    · intro h
      rw [asAliasGo_cons] at h
      by_cases hc : isDotMatchable c
      · rw [if_pos hc] at h
        cases hm : matchTailAS rest with
        | some m =>
          rw [hm] at h
          have hmid : m = id := by simpa using h
          subst hmid
          exact ⟨[c], rest, rfl, by simp, by simpa using hc, hm⟩
        | none =>
          rw [hm] at h
          obtain ⟨p, t, heq, hpne, hpdot, hmt⟩ := ih.mp h
          refine ⟨c :: p, t, by rw [heq]; rfl, by simp, ?_, hmt⟩
          intro x hx
          rcases List.mem_cons.mp hx with hx | hx
          · subst hx; exact hc
          · exact hpdot x hx
      · rw [if_neg hc] at h; simp at h
    · rintro ⟨p, t, heq, hpne, hpdot, hmt⟩
      cases p with
      | nil => exact absurd rfl hpne
      | cons p0 p' =>
        have hp0 : p0 = c := by
          have h0 := congrArg List.head? heq
          simpa using h0.symm
        subst hp0
        have hrest : rest = p' ++ t := by
          have h0 := congrArg List.tail heq
          simpa using h0
        rw [asAliasGo_cons, if_pos (hpdot p0 (List.mem_cons_self p0 p'))]
        cases hm : matchTailAS rest with
        | some m =>
          have h1 : m = trailingWordRun rest := matchTailAS_val rest m hm
          have h2 : trailingWordRun rest = id := by
            rw [hrest]
            exact matchTailAS_val_of_prepend p' t id hmt
          rw [h1, h2]
        | none =>
          cases p' with
          | nil =>
            rw [List.nil_append] at hrest
            rw [hrest] at hm
            rw [hm] at hmt
            exact absurd hmt (by simp)
          | cons q p'' =>
            apply ih.mpr
            exact ⟨q :: p'', t, hrest, by simp,
              fun x hx => hpdot x (List.mem_cons_of_mem p0 hx), hmt⟩

/-- Claim C5 counterexample: on `a AS 2b` the code's alias rule fires and
returns the digit-leading word `2b`, although the claim's identifier pattern
(no leading digit) does not match, so by the claim the rule should not fire
(the remaining rules would yield `a`). -/
theorem extractColumnName_digit_alias :
    extractColumnName newSQLQueryAnalyzer "a AS 2b".data = "2b".data ∧
    matchAsAlias "a AS 2b".data = some "2b".data ∧
    claimAliasFires "a AS 2b".data = false ∧
    ("2b".data : List Char) ≠ "a".data :=
  ⟨rfl, rfl, by decide, by decide⟩

/-- Claim C5 amended: for a column expression not starting with `(`, the
explicit-alias rule fires exactly when the whole expression splits as
`<anything> AS <word>` — case-insensitive `AS` surrounded by whitespace,
the trailing word being any non-empty run of `\w` characters (a leading
digit is allowed) — and then the returned name is that word. -/
theorem extractColumnName_explicit_alias (an : SQLQueryAnalyzer) (e id : List Char)
    (hp : strStartsWith (jsTrim e) "(".data = false) :
    (matchAsAlias e = some id ↔ AsAliasDecomp e id) ∧
    (matchAsAlias e = some id → extractColumnName an e = id) := by
  constructor
  · rw [show matchAsAlias e = asAliasGo e from rfl, asAliasGo_iff]
    unfold AsAliasDecomp AsAliasDecompWith
    constructor
    · rintro ⟨p, t, rfl, hpne, hpdot, hmt⟩
      obtain ⟨w1, a, b, w2, rfl, hw1ne, hw1, ha, hb, hw2ne, hw2, hidne, hid⟩ :=
        (matchTailAS_iff _ id).mp hmt
      exact ⟨p, w1, a, b, w2, by simp [List.append_assoc], hpne, hpdot, hw1ne, hw1,
        ha, hb, hw2ne, hw2, hidne, hid⟩
    · rintro ⟨p, w1, a, b, w2, rfl, hpne, hpdot, hw1ne, hw1, ha, hb, hw2ne, hw2, hidne, hid⟩
      refine ⟨p, w1 ++ [a, b] ++ w2 ++ id, by simp [List.append_assoc], hpne, hpdot, ?_⟩
      exact (matchTailAS_iff _ id).mpr
        ⟨w1, a, b, w2, rfl, hw1ne, hw1, ha, hb, hw2ne, hw2, hidne, hid⟩
  · intro h
    unfold extractColumnName
    rw [if_neg (by simp [hp]), h]

/-- Witness for the amended C5 theorem at a concrete aliased expression. -/
theorem extractColumnName_explicit_alias_witness :
    extractColumnName newSQLQueryAnalyzer "price + tax AS total".data = "total".data :=
  (extractColumnName_explicit_alias newSQLQueryAnalyzer "price + tax AS total".data
    "total".data (by decide)).2 rfl
